import Mathlib

/-!
Shallow embedding of the extraction pipeline of `parser/parser.go`
(repository `gospodinzerkalo/gocodegen`).

Modelling conventions:
* Strings are Lean `String`s; where proofs need structural recursion we work
  on the underlying `List Char` (`String.data`).
* Go runtime behaviour is made explicit: a function that can panic returns an
  `Outcome`.  Go's `nil` maps are modelled as `Option` of an association
  list: reading a `nil` map yields the zero value (`none`), while writing to a
  `nil` map panics ("assignment to entry in nil map"), exactly as in Go.
* Pointers `*Entity` shared between `Parser.Entities` and
  `Parser.EntitiesByName` are modelled as indices into an explicit heap
  (`PState.heap`), so aliasing and in-place mutation are preserved.
* `ast.Inspect` visits the `*ast.TypeSpec` and `*ast.FuncDecl` nodes of the
  file in document order; a source file is therefore modelled as the list of
  those nodes (`List Decl`).  Template rendering, goimports and file writing
  (`generate`/`generateCode`) are I/O collaborators outside the extraction
  core and are modelled as succeeding.
* Character classes of Go's `regexp` (`\d`, `\w`) are ASCII, as in RE2
  without Unicode flags; `strings.ToUpper` is modelled on the ASCII range by
  `Char.toUpper` (all identifiers in scope of the claims are ASCII).
-/

/-- Result of running a piece of Go code: normal completion, a returned
non-nil `error` value, or a runtime panic aborting the whole run. -/
inductive Outcome (α : Type) where
  | ok (a : α)
  | goError (msg : String)
  | panicked (msg : String)
deriving DecidableEq

/-- Sequencing of Go steps: a panic or a returned error short-circuits. -/
def obind {α β : Type} (x : Outcome α) (f : α → Outcome β) : Outcome β :=
  match x with
  | .ok a => f a
  | .goError m => .goError m
  | .panicked m => .panicked m

/-- True exactly when the outcome is an error value returned to the caller
(as opposed to a panic or normal completion). -/
def isGoErrorOutcome {α : Type} : Outcome α → Bool
  | .goError _ => true
  | _ => false

/-- Equality test on characters, as a Bool (Go's `==` on runes/bytes). -/
def chEq (a b : Char) : Bool := decide (a = b)

/-- Prefix test on character lists (Go's string prefix comparison). -/
def isPre : List Char → List Char → Bool
  | [], _ => true
  | _ :: _, [] => false
  | a :: as, b :: bs => chEq a b && isPre as bs

/-- Substring (infix) test on character lists. -/
def isInf (pat : List Char) : List Char → Bool
  | [] => isPre pat []
  | c :: t => isPre pat (c :: t) || isInf pat t

/-- Index of the leftmost occurrence of `pat` in `s`, if any. -/
def firstIdx (pat : List Char) : List Char → Option Nat
  | [] => if isPre pat [] then some 0 else none
  | c :: t => if isPre pat (c :: t) then some 0 else (firstIdx pat t).map Nat.succ

/-- Fueled worker for `goReplaceAll`.  One unit of fuel is spent per removed
occurrence or per emitted character, so fuel `s.length` always suffices. -/
def goReplaceAllAux (pat : List Char) : Nat → List Char → List Char
  | _, [] => []
  | 0, s => s
  | Nat.succ f, c :: rest =>
    if isPre pat (c :: rest) then goReplaceAllAux pat f ((c :: rest).drop pat.length)
    else c :: goReplaceAllAux pat f rest

/-- Model of Go `strings.Replace(s, pat, "", -1)` for non-empty `pat`:
one left-to-right pass removing non-overlapping occurrences. -/
def goReplaceAll (pat s : List Char) : List Char := goReplaceAllAux pat s.length s

/-- String-level wrapper for `strings.Replace(s, pat, "", -1)`. -/
def goReplaceAllStr (s pat : String) : String := String.mk (goReplaceAll pat.data s.data)

/-- Fueled worker for `specRemoveAll`. -/
def specRemoveAllAux (pat : List Char) : Nat → List Char → List Char
  | 0, s => s
  | Nat.succ f, s =>
    match firstIdx pat s with
    | none => s
    | some i => s.take i ++ specRemoveAllAux pat f (s.drop (i + pat.length))

/-- Specification-side description of removal of every occurrence: find the
leftmost occurrence, delete it, and continue with the text after it.  Used to
state amended claims independently of the one-pass scanner `goReplaceAll`. -/
def specRemoveAll (pat s : List Char) : List Char := specRemoveAllAux pat s.length s

/-- Removal of only the leftmost occurrence of `pat` (the reading
"the leading occurrence removed" used by the original claim wording). -/
def removeFirstOcc (pat s : List Char) : List Char :=
  match firstIdx pat s with
  | none => s
  | some i => s.take i ++ s.drop (i + pat.length)

/-- Model of Go `strings.HasSuffix`. -/
def goHasSuffix (s pat : String) : Bool :=
  decide (pat.data.length ≤ s.data.length) &&
    isPre pat.data (s.data.drop (s.data.length - pat.data.length))

/-- Model of the source's `toUpper`: empty string unchanged, otherwise the
first character upper-cased (ASCII, per `strings.ToUpper` on that range). -/
def toUpper (s : String) : String :=
  match s.data with
  | [] => ""
  | c :: rest => String.mk (Char.toUpper c :: rest)

/-- Model of `enhanceDescription`: `toUpper(strings.Replace(description,
rpc ++ " ", "", -1))`. -/
def enhanceDescription (description rpc : String) : String :=
  toUpper (String.mk (goReplaceAll (rpc.data ++ [' ']) description.data))

/-- Claim-side variant of the description derivation: only the leading
occurrence of the handler-name-plus-space is removed. -/
def claimDerivedDescription (description rpc : String) : String :=
  toUpper (String.mk (removeFirstOcc (rpc.data ++ [' ']) description.data))

/-- Claim-side reading of suffix stripping: the name with its trailing
suffix removed (and nothing else). -/
def stripSuffixSpec (s pat : String) : String :=
  String.mk (s.data.take (s.data.length - pat.data.length))

/-- Character class `\w` of Go's RE2 (`[0-9A-Za-z_]`). -/
def wordChar (c : Char) : Bool := c.isAlphanum || chEq c '_'

/-- Literal head of the tag pattern: `json:"`. -/
def litJson : List Char := ("json:\"").data

/-- Tail of the tag pattern after the capture group: the optional
`,omitempty` followed by the closing quote. -/
def annTail (om : Bool) : List Char := (if om then (",omitempty").data else []) ++ ['"']

/-- A full serialization annotation: the literal `json:"`, a captured
identifier, optionally `,omitempty`, and the closing quote. -/
def tagAnnot (id : List Char) (om : Bool) : List Char := litJson ++ id ++ annTail om

/-- Test whether the remainder of the text can close the tag pattern:
either `,omitempty"` follows, or a `"` follows. -/
def tailMatch (s : List Char) : Bool :=
  isPre ((",omitempty\"").data) s || isPre (['"']) s

/-- Backtracking for the greedy `\w+`: try capture lengths `k, k-1, ..., 1`
and keep the first one after which the pattern tail matches. -/
def tryLens (s : List Char) : Nat → Option Nat
  | 0 => none
  | Nat.succ k => if tailMatch (s.drop (k + 1)) then some (k + 1) else tryLens s k

/-- Capture of `(\d|\w+)(,omitempty)?"` at the start of `s` (leftmost-first
semantics: the single-digit alternative is tried before the greedy `\w+`). -/
def matchCap (s : List Char) : Option (List Char) :=
  match s with
  | [] => none
  | c :: rest =>
    if c.isDigit && tailMatch rest then some [c]
    else (tryLens s (s.takeWhile wordChar).length).map (fun k => s.take k)

/-- Full pattern match of `json:"(\d|\w+)(,omitempty)?"` anchored at the
start of `s`, returning the first capture group. -/
def matchAt (s : List Char) : Option (List Char) :=
  if isPre litJson s then matchCap (s.drop litJson.length) else none

/-- Leftmost match of the tag pattern anywhere in `s`
(Go `regexp.FindStringSubmatch`), returning the first capture group. -/
def findCap : List Char → Option (List Char)
  | [] => none
  | c :: t =>
    match matchAt (c :: t) with
    | some r => some r
    | none => findCap t

/-- Model of `parseTag`: `re.FindStringSubmatch(tag)[1]`.  When the pattern
does not match, `FindStringSubmatch` returns `nil` and the index expression
panics. -/
def parseTag (tag : String) : Outcome String :=
  match findCap tag.data with
  | some c => .ok (String.mk c)
  | none => .panicked ("runtime error: index out of range")

/-- Syntactic type expressions (`ast.Expr`) in the shapes relevant to the
source.  A selector's qualifier is the name of its `*ast.Ident` operand (a
qualified name `pkg.Sel`); `mapType` and `funcType` stand for the node kinds
that reach `mapFieldType`'s default case. -/
inductive Expr where
  | ident (name : String)
  | star (x : Expr)
  | sel (pkg : String) (field : String)
  | array (elt : Expr)
  | structType (fields : List (List String × String × Option String × Expr))
  | mapType (key : Expr) (value : Expr)
  | funcType

/-- One struct field (`*ast.Field`): `Names` (identifiers), `Doc.Text()`,
the raw tag (`Tag` is `nil` or its `Value`, backquotes included), and the
type expression. -/
abbrev GoField := List String × String × Option String × Expr

/-- Field projection: `Field.Names`. -/
def GoField.names (f : GoField) : List String := f.1

/-- Field projection: `Field.Doc.Text()` (empty when no doc comment). -/
def GoField.doc (f : GoField) : String := f.2.1

/-- Field projection: `Field.Tag` (`none` models a `nil` tag literal). -/
def GoField.tag (f : GoField) : Option String := f.2.2.1

/-- Field projection: `Field.Type`. -/
def GoField.ftype (f : GoField) : Expr := f.2.2.2

/-- Go's `%T` rendering of the dynamic node type, used in panic messages. -/
def goNodeTypeName : Expr → String
  | .ident _ => "*ast.Ident"
  | .star _ => "*ast.StarExpr"
  | .sel _ _ => "*ast.SelectorExpr"
  | .array _ => "*ast.ArrayType"
  | .structType _ => "*ast.StructType"
  | .mapType _ _ => "*ast.MapType"
  | .funcType => "*ast.FuncType"

/-- True exactly for bare identifiers. -/
def isIdentExpr : Expr → Bool
  | .ident _ => true
  | _ => false

/-- True exactly for struct literals (`*ast.StructType`). -/
def isStructTypeExpr : Expr → Bool
  | .structType _ => true
  | _ => false

/-- True for the node kinds handled by `mapFieldType`'s default case
(everything except identifiers, stars, selectors and arrays). -/
def isUnmappedShape : Expr → Bool
  | .ident _ => false
  | .star _ => false
  | .sel _ _ => false
  | .array _ => false
  | _ => true

/-- Model of `mapFieldType`.  The default case panics via
`panic(fmt.Sprintf("Unmapped type %T %v", x, x))`; the `%v` rendering of the
node is elided from the modelled message. -/
def mapFieldType : Expr → Outcome String
  | .ident n => .ok n
  | .star x =>
    match x with
    | .ident n => .ok n
    | _ => .ok ("Object")
  | .sel p f =>
    let name := p ++ "." ++ f
    if name = "globalid.ID" then .ok ("UUID")
    else if name = "model.ReactionType" then .ok ("string")
    else if name = "model.CardsResponse" ∨ name = "model.CardResponse" ∨ name = "model.Draft" then
      .ok ("Object")
    else .ok name
  | .array _ => .ok ("Array")
  | e => .panicked ("Unmapped type " ++ goNodeTypeName e)

/-- Model of the `Parameter` struct. -/
structure Parameter where
  Field : String
  type : String
  Description : String
  Tag : String
deriving DecidableEq

/-- Model of the `ResponseField` struct (its `Tag` field is never assigned
by `addResponseField` and stays at the zero value). -/
structure ResponseField where
  Field : String
  type : String
  Description : String
  Tag : String
deriving DecidableEq

/-- Model of the `Response` struct (`Fields` nil and empty coincide). -/
structure Response where
  type : String
  Fields : List ResponseField
deriving DecidableEq

/-- Model of the `Entity` struct.  `ParameterByName` is an optional
association list: `none` is Go's `nil` map. -/
structure Entity where
  Name : String
  Description : String
  Response : Option Response
  Parameters : List Parameter
  ParameterByName : Option (List (String × Parameter))
deriving DecidableEq

/-- Model of `NewEntity`: only `Name`, `Description` and `Response` are set;
`Parameters` is the zero-value nil slice and `ParameterByName` the
zero-value nil map. -/
def NewEntity (name : String) : Entity :=
  { Name := name, Description := "", Response := none, Parameters := [], ParameterByName := none }

/-- Mutable state of a `Parser` run.  `heap` holds the `*Entity` allocations;
`Entities` and `EntitiesByName` store heap indices (pointers). -/
structure PState where
  heap : List Entity
  Entities : List Nat
  EntitiesByName : Option (List (String × Nat))
deriving DecidableEq

/-- State built by `NewParser`: `Entities` is `make([]*Entity, 0)` but the
`EntitiesByName` field is omitted from the composite literal, so it is the
zero-value nil map. -/
def newParserState : PState := { heap := [], Entities := [], EntitiesByName := none }

/-- Read of a Go map modelled as `Option` association list: reading a nil
map yields the zero value. -/
def mapLookup {α : Type} (m : Option (List (String × α))) (k : String) : Option α :=
  match m with
  | none => none
  | some l => (l.find? (fun p => p.1 == k)).map (fun p => p.2)

/-- Key update in an association list (insert or overwrite). -/
def listInsert {α : Type} (l : List (String × α)) (k : String) (v : α) : List (String × α) :=
  match l with
  | [] => [(k, v)]
  | (k', v') :: t => if k' == k then (k, v) :: t else (k', v') :: listInsert t k v

/-- Write to a Go map modelled as `Option` association list: writing to a
nil map panics, as in Go. -/
def mapInsert {α : Type} (m : Option (List (String × α))) (k : String) (v : α) :
    Outcome (List (String × α)) :=
  match m with
  | none => .panicked ("assignment to entry in nil map")
  | some l => .ok (listInsert l k v)

/-- In-place update of the heap cell at index `i`. -/
def modifyAt (l : List Entity) (i : Nat) (f : Entity → Entity) : List Entity :=
  match l, i with
  | [], _ => []
  | e :: t, 0 => f e :: t
  | e :: t, Nat.succ j => e :: modifyAt t j f

/-- The `if p.EntitiesByName[entity] == nil { p.EntitiesByName[entity] =
NewEntity(entity) }` idiom shared by `addParameter` and `addResponseField`:
returns the entity's pointer, allocating and registering it if absent.  The
registration write panics whenever `EntitiesByName` is the nil map. -/
def ensureEntity (entity : String) (s : PState) : Outcome (Nat × PState) :=
  match mapLookup s.EntitiesByName entity with
  | some i => .ok (i, s)
  | none =>
    let idx := s.heap.length
    let s1 : PState := { s with heap := s.heap ++ [NewEntity entity] }
    obind (mapInsert s1.EntitiesByName entity idx) (fun m =>
      .ok (idx, { s1 with EntitiesByName := some m }))

/-- Construction of one `Parameter` composite literal, in source order:
`Field: field.Names[0].Name` (panics on an anonymous field), `Description:
field.Doc.Text()`, `Tag: parseTag(field.Tag.Value)` (nil-pointer panic when
the field has no tag), `Type: mapFieldType(field.Type)`. -/
def mkParameter (f : GoField) : Outcome Parameter :=
  match f.names with
  | [] => .panicked ("runtime error: index out of range")
  | nm :: _ =>
    match f.tag with
    | none => .panicked ("runtime error: invalid memory address or nil pointer dereference")
    | some rawTag =>
      obind (parseTag rawTag) (fun tagKey =>
        obind (mapFieldType f.ftype) (fun ty =>
          .ok { Field := nm, type := ty, Description := f.doc, Tag := tagKey }))

/-- Appending one parameter to the entity at heap index `i`:
`Parameters = append(...)`, then the write into the entity's
`ParameterByName` map — which panics when that map is nil (it always is,
since `NewEntity` never initializes it). -/
def attachParameter (i : Nat) (param : Parameter) (s : PState) : Outcome PState :=
  let s1 : PState :=
    { s with heap := modifyAt s.heap i (fun e => { e with Parameters := e.Parameters ++ [param] }) }
  match s1.heap.get? i with
  | none => .panicked ("runtime error: invalid memory address or nil pointer dereference")
  | some e =>
    obind (mapInsert e.ParameterByName param.Field param) (fun m =>
      .ok { s1 with heap := modifyAt s1.heap i (fun e' => { e' with ParameterByName := some m }) })

/-- Body of `addParameter`'s loop for a single field. -/
def addParamStep (entity : String) (f : GoField) (s : PState) : Outcome PState :=
  obind (mkParameter f) (fun param =>
    obind (ensureEntity entity s) (fun p => attachParameter p.1 param p.2))

/-- Model of `addParameter`: iterate over the struct's field list. -/
def addParameter (entity : String) (fields : List GoField) (s : PState) : Outcome PState :=
  match fields with
  | [] => .ok s
  | f :: rest => obind (addParamStep entity f s) (addParameter entity rest)

/-- Construction of one `ResponseField` composite literal, in source order:
`Description: field.Doc.Text()`, `Field: parseTag(field.Tag.Value)`
(nil-pointer panic when the field has no tag), `Type:
mapFieldType(field.Type)`.  Its `Tag` field is left at the zero value. -/
def mkResponseField (f : GoField) : Outcome ResponseField :=
  match f.tag with
  | none => .panicked ("runtime error: invalid memory address or nil pointer dereference")
  | some rawTag =>
    obind (parseTag rawTag) (fun key =>
      obind (mapFieldType f.ftype) (fun ty =>
        .ok { Field := key, type := ty, Description := f.doc, Tag := "" }))

/-- Folding `mkResponseField` over a struct's fields. -/
def buildResponseFields : List GoField → Outcome (List ResponseField)
  | [] => .ok []
  | f :: rest =>
    obind (mkResponseField f) (fun rf =>
      obind (buildResponseFields rest) (fun rfs => .ok (rf :: rfs)))

/-- The `Response` value built by `addResponseField`'s switch: `"Object"`
with per-field `ResponseField`s for a struct type, otherwise the mapped
type with no fields. -/
def buildResponse (e : Expr) : Outcome Response :=
  match e with
  | .structType fields =>
    obind (buildResponseFields fields) (fun fs => .ok { type := "Object", Fields := fs })
  | x => obind (mapFieldType x) (fun t => .ok { type := t, Fields := [] })

/-- Model of `addResponseField`: ensure the entity exists (nil-map write —
panics on the never-initialized `EntitiesByName`), build the response, and
attach it only if `Type != "Object" || len(Fields) != 0`. -/
def addResponseField (entity : String) (e : Expr) (s : PState) : Outcome PState :=
  obind (ensureEntity entity s) (fun p =>
    obind (buildResponse e) (fun r =>
      if r.type ≠ "Object" ∨ r.Fields.length ≠ 0 then
        .ok { p.2 with heap := modifyAt p.2.heap p.1 (fun en => { en with Response := some r }) }
      else .ok p.2))

/-- Model of `AddEndpoint`: look the entity up (nil-map read is fine),
allocate it if absent, set its `Description` via `enhanceDescription`, then
`p.EntitiesByName[name] = entity` (panics on the nil map) and finally
`p.Entities = append(p.Entities, entity)`. -/
def AddEndpoint (name description : String) (s : PState) : Outcome PState :=
  let alloc : Nat × PState :=
    match mapLookup s.EntitiesByName name with
    | some i => (i, s)
    | none => (s.heap.length, { s with heap := s.heap ++ [NewEntity name] })
  let s2 : PState :=
    { alloc.2 with
      heap := modifyAt alloc.2.heap alloc.1
        (fun e => { e with Description := enhanceDescription description name }) }
  obind (mapInsert s2.EntitiesByName name alloc.1) (fun m =>
    .ok { s2 with EntitiesByName := some m, Entities := s2.Entities ++ [alloc.1] })

/-- One type declaration (`*ast.TypeSpec`): its name and underlying type. -/
structure TypeSpec where
  Name : String
  type : Expr

/-- The entity name computed for a `...Request` declaration:
`strings.Replace(name, "Request", "", -1)`. -/
def requestEndpointName (n : String) : String := goReplaceAllStr n ("Request")

/-- The entity name computed for a `...Response` declaration:
`strings.Replace(name, "Response", "", -1)`. -/
def responseEndpointName (n : String) : String := goReplaceAllStr n ("Response")

/-- Model of `parseType`.  The `Request` branch performs the unchecked type
assertion `st.Type.(*ast.StructType)`, which panics on any other node kind.
The function's Go `error` result is literally `return nil` on every path, so
the walker's stop-on-error branch can never fire; the model therefore
returns only the state (or a panic). -/
def parseType (ts : TypeSpec) (s : PState) : Outcome PState :=
  obind
    (if goHasSuffix ts.Name ("Request") then
      match ts.type with
      | .structType fields => addParameter (requestEndpointName ts.Name) fields s
      | e =>
        .panicked ("interface conversion: ast.Expr is " ++ goNodeTypeName e ++
          ", not *ast.StructType")
    else .ok s)
    (fun s1 =>
      if goHasSuffix ts.Name ("Response") then
        addResponseField (responseEndpointName ts.Name) ts.type s1
      else .ok s1)

/-- One function declaration (`*ast.FuncDecl`): `recv` is `none` for a nil
receiver, otherwise the type expression of `Recv.List[0]`; `doc` is
`Doc.Text()`. -/
structure FuncDecl where
  recv : Option Expr
  Name : String
  doc : String

/-- Model of `parseFunction`: only a single-level pointer receiver to an
identifier is inspected; `string(name[0])` panics on an empty name; the
handler test is `ident.Name == "api" && firstChar == strings.ToUpper(firstChar)`. -/
def parseFunction (fd : FuncDecl) (s : PState) : Outcome PState :=
  match fd.recv with
  | none => .ok s
  | some (Expr.star (Expr.ident rname)) =>
    match fd.Name.data with
    | [] => .panicked ("runtime error: index out of range")
    | c :: _ =>
      if rname = "api" ∧ Char.toUpper c = c then AddEndpoint fd.Name fd.doc s else .ok s
  | some _ => .ok s

/-- A node of interest seen by `ast.Inspect`: a type spec, a function
declaration, or any other node (ignored by the switch). -/
inductive Decl where
  | typeDecl (ts : TypeSpec)
  | funcDecl (fd : FuncDecl)
  | other

/-- The traversal of `Parse`'s `ast.Inspect` callback over the file's nodes
in document order.  (`parseType` always returns a nil Go error, so the
callback's `return false` pruning branch is dead code.) -/
def walk : List Decl → PState → Outcome PState
  | [], s => .ok s
  | Decl.typeDecl ts :: rest, s => obind (parseType ts s) (walk rest)
  | Decl.funcDecl fd :: rest, s => obind (parseFunction fd s) (walk rest)
  | Decl.other :: rest, s => walk rest s

/-- Model of `Parse` run on a freshly constructed parser: traverse the file
from `NewParser`'s state.  The subsequent `generate` step (template
rendering, goimports, file write) is an out-of-scope I/O collaborator and is
modelled as succeeding, so `Parse`'s result is the traversal's outcome. -/
def parseFile (decls : List Decl) : Outcome PState := walk decls newParserState

/-- The rendered view of the registry: the entities of the ordered render
sequence `Entities`, resolved through the heap, with all field values. -/
def renderedEntities (s : PState) : List (Option Entity) :=
  s.Entities.map (fun i => s.heap.get? i)

/-- Claim C1 (code bug): evaluating the code on a single well-formed
`Request` declaration with one validly tagged field.  Instead of producing
an entity with one parameter, the run panics with Go's nil-map write error:
`NewParser` never initializes `Parser.EntitiesByName` and `NewEntity` never
initializes `Entity.ParameterByName`, so `addParameter`'s first map write
aborts the run. -/
theorem c1_request_parameters_nil_map_panic :
    parseFile [Decl.typeDecl ⟨"FooRequest",
      Expr.structType [(["Name"], "", some ("`json:\"name\"`"), Expr.ident ("string"))]⟩] =
      .panicked ("assignment to entry in nil map") := by decide

/-- Claim C3 (code bug): evaluating the code on a `Response` declaration
whose underlying struct has zero fields.  The claim says the entity's
`Response` is simply left unset; instead the run panics before the
attachment rule is even reached, because `addResponseField` first registers
the entity in the never-initialized `EntitiesByName` map. -/
theorem c3_empty_object_response_nil_map_panic :
    parseFile [Decl.typeDecl ⟨"FooResponse", Expr.structType []⟩] =
      .panicked ("assignment to entry in nil map") := by decide

/-- Claim C9 (code bug): evaluating the code on a single recognized handler
method.  `AddEndpoint` writes the entity into the never-initialized
`EntitiesByName` map before appending to `Entities`, so the first handler
panics and nothing is ever appended to the render sequence. -/
theorem c9_add_endpoint_nil_map_panic :
    parseFile [Decl.funcDecl ⟨some (Expr.star (Expr.ident ("api"))), "Foo",
      "Foo does things.\n"⟩] =
      .panicked ("assignment to entry in nil map") := by decide

/-- Claim C2: the type mapper's complete contract — identifiers map to their
own name, a pointer to an identifier to that name and any other pointer to
`Object`, arrays to `Array` regardless of element type, the five qualified
names through the lookup table, any other qualified name to its fully
qualified string, and every other node kind panics (no fallback). -/
theorem c2_mapFieldType_contract :
    (∀ n : String, mapFieldType (Expr.ident n) = .ok n) ∧
    (∀ n : String, mapFieldType (Expr.star (Expr.ident n)) = .ok n) ∧
    (∀ e : Expr, isIdentExpr e = false → mapFieldType (Expr.star e) = .ok ("Object")) ∧
    (∀ e : Expr, mapFieldType (Expr.array e) = .ok ("Array")) ∧
    (mapFieldType (Expr.sel ("globalid") ("ID")) = .ok ("UUID")) ∧
    (mapFieldType (Expr.sel ("model") ("ReactionType")) = .ok ("string")) ∧
    (mapFieldType (Expr.sel ("model") ("CardsResponse")) = .ok ("Object")) ∧
    (mapFieldType (Expr.sel ("model") ("CardResponse")) = .ok ("Object")) ∧
    (mapFieldType (Expr.sel ("model") ("Draft")) = .ok ("Object")) ∧
    (∀ p f : String,
      (p ++ "." ++ f) ∉ (["globalid.ID", "model.ReactionType", "model.CardsResponse",
        "model.CardResponse", "model.Draft"] : List String) →
      mapFieldType (Expr.sel p f) = .ok (p ++ "." ++ f)) ∧
    (∀ e : Expr, isUnmappedShape e = true →
      mapFieldType e = .panicked ("Unmapped type " ++ goNodeTypeName e)) := by
  refine ⟨fun n => rfl, fun n => rfl, ?_, fun e => rfl, rfl, rfl, rfl, rfl, rfl, ?_, ?_⟩
  · intro e he
    cases e <;> first | rfl | simp [isIdentExpr] at he
  · intro p f h
    simp only [List.mem_cons, List.not_mem_nil, or_false, not_or] at h
    obtain ⟨h1, h2, h3, h4, h5⟩ := h
    simp only [mapFieldType]
    rw [if_neg h1, if_neg h2,
      if_neg (fun hc => hc.elim h3 (fun hc' => hc'.elim h4 h5))]
  · intro e he
    cases e <;> first | rfl | simp [isUnmappedShape] at he

/-- Claim C2 witness: the contract applied at concrete expressions — a
pointer to a selector, an unlisted qualified name, and a struct node hitting
the fatal default case. -/
theorem c2_mapFieldType_contract_witness :
    mapFieldType (Expr.star (Expr.sel ("a") ("B"))) = .ok ("Object") ∧
    mapFieldType (Expr.sel ("foo") ("Bar")) = .ok ("foo.Bar") ∧
    mapFieldType (Expr.structType []) = .panicked ("Unmapped type *ast.StructType") :=
  ⟨c2_mapFieldType_contract.2.2.1 _ (by decide),
   c2_mapFieldType_contract.2.2.2.2.2.2.2.2.2.1 ("foo") ("Bar") (by decide),
   c2_mapFieldType_contract.2.2.2.2.2.2.2.2.2.2 _ (by decide)⟩

/-- Claim C8: extraction is deterministic — two runs of the traversal on
the same node sequence that complete normally produce structurally
identical registries (same entity order, same field values, and in fact
identical states). -/
theorem c8_extraction_deterministic :
    ∀ (decls : List Decl) (s1 s2 : PState),
      parseFile decls = .ok s1 → parseFile decls = .ok s2 →
      renderedEntities s1 = renderedEntities s2 ∧ s1 = s2 := by
  intro decls s1 s2 h1 h2
  rw [h1] at h2
  injection h2 with h
  subst h
  exact ⟨rfl, rfl⟩

/-- Claim C8 witness: determinism applied to a concrete file (one ignored
declaration), whose two runs both complete with the empty registry. -/
theorem c8_extraction_deterministic_witness :
    renderedEntities newParserState = renderedEntities newParserState ∧
      newParserState = newParserState :=
  c8_extraction_deterministic [Decl.other] newParserState newParserState (by decide) (by decide)

/-- Claim C10: the exported-name check compares the first byte with its
upper-cased form, so any method on receiver `*api` whose name starts with
an ASCII character that upper-cases to itself — even one that is not an
upper-case letter, such as an underscore or a digit — is dispatched to
`AddEndpoint` as an endpoint handler. -/
theorem c10_first_byte_exported_check :
    ∀ (name doc : String) (s : PState) (c : Char) (cs : List Char),
      name.data = c :: cs → c.toNat < 128 → c.isUpper = false → Char.toUpper c = c →
      parseFunction ⟨some (Expr.star (Expr.ident ("api"))), name, doc⟩ s =
        AddEndpoint name doc s := by
  intro name doc s c cs hdata hascii hnotupper hupper
  simp [parseFunction, hdata, hupper]

/-- Claim C10 witness: a method named `_do` on `*api` (underscore-initial,
hence not exported in Go's sense) is treated as a handler. -/
theorem c10_first_byte_exported_check_witness :
    parseFunction ⟨some (Expr.star (Expr.ident ("api"))), "_do", ""⟩ newParserState =
      AddEndpoint ("_do") ("") newParserState :=
  c10_first_byte_exported_check ("_do") ("") newParserState '_' (("do").data)
    (by decide) (by decide) (by decide) (by decide)

/-- Claim C7 counterexample: on a `Request`-suffixed declaration that is not
a struct, `Parse` does not surface an error value to its caller — the run
aborts with the type-assertion panic (and `parseType` returns a nil Go
error on every path, so the walker's stop-on-error branch never fires). -/
theorem c7_counterexample :
    parseFile [Decl.typeDecl ⟨"BrokenRequest", Expr.ident ("int")⟩] =
      .panicked ("interface conversion: ast.Expr is *ast.Ident, not *ast.StructType") ∧
    isGoErrorOutcome (parseFile [Decl.typeDecl ⟨"BrokenRequest", Expr.ident ("int")⟩]) = false :=
  ⟨by decide, by decide⟩

/-- Claim C4 counterexample: for the declaration name `RequestLogRequest`
the code records the entity under `Log` — `strings.Replace(..., -1)` removes
every occurrence of `Request`, not just the trailing suffix the claim
promises (`RequestLog`). -/
theorem c4_counterexample :
    requestEndpointName ("RequestLogRequest") = ("Log") ∧
    requestEndpointName ("RequestLogRequest") ≠ ("RequestLog") :=
  ⟨by decide, by decide⟩

/-- Claim C5 counterexample: for handler name `Get` and doc text
`"Get Get things"` the code derives `"Things"` (every occurrence of
`"Get "` removed), while the claim's leading-occurrence-only rule derives
`"Get things"`. -/
theorem c5_counterexample :
    enhanceDescription ("Get Get things") ("Get") = ("Things") ∧
    claimDerivedDescription ("Get Get things") ("Get") = ("Get things") ∧
    enhanceDescription ("Get Get things") ("Get") ≠
      claimDerivedDescription ("Get Get things") ("Get") :=
  ⟨by decide, by decide, by decide⟩

theorem isPre_iff (l : List Char) : ∀ s, isPre l s = true ↔ ∃ t, s = l ++ t := by
  induction l with
  | nil => intro s; simp [isPre]
  | cons a as ih =>
    intro s
    cases s with
    | nil => simp [isPre]
    | cons b bs =>
      simp only [isPre, chEq, Bool.and_eq_true, decide_eq_true_eq, List.cons_append]
      constructor
      · rintro ⟨rfl, h⟩
        obtain ⟨t, rfl⟩ := (ih bs).1 h
        exact ⟨t, rfl⟩
      · rintro ⟨t, ht⟩
        have h1 : b = a := by injection ht
        have h2 : bs = as ++ t := by injection ht
        exact ⟨h1.symm, (ih bs).2 ⟨t, h2⟩⟩

theorem isPre_append (l t : List Char) : isPre l (l ++ t) = true :=
  (isPre_iff l (l ++ t)).2 ⟨t, rfl⟩

theorem isPre_length_le {l s : List Char} (h : isPre l s = true) : l.length ≤ s.length := by
  obtain ⟨t, rfl⟩ := (isPre_iff l s).1 h
  simp

theorem isInf_iff (pat : List Char) : ∀ s, isInf pat s = true ↔ ∃ u v, s = u ++ pat ++ v := by
  intro s
  induction s with
  | nil =>
    show isPre pat [] = true ↔ _
    rw [isPre_iff]
    constructor
    · rintro ⟨t, ht⟩
      obtain ⟨hpat, hts⟩ := List.append_eq_nil.mp ht.symm
      exact ⟨[], [], by simp [hpat]⟩
    · rintro ⟨u, v, huv⟩
      obtain ⟨hu, h2⟩ := List.append_eq_nil.mp (List.append_assoc u pat v ▸ huv).symm
      obtain ⟨hpat, hv⟩ := List.append_eq_nil.mp h2
      exact ⟨[], by simp [hpat]⟩
  | cons c t ih =>
    show (isPre pat (c :: t) || isInf pat t) = true ↔ _
    rw [Bool.or_eq_true, isPre_iff, ih]
    constructor
    · rintro (⟨v, hv⟩ | ⟨u, v, huv⟩)
      · exact ⟨[], v, by simpa using hv⟩
      · exact ⟨c :: u, v, by simp [huv]⟩
    · rintro ⟨u, v, huv⟩
      cases u with
      | nil => exact Or.inl ⟨v, by simpa using huv⟩
      | cons c' u' =>
        have h2 : t = u' ++ pat ++ v := by
          have := huv
          simp only [List.cons_append, List.append_assoc] at this ⊢
          injection this
        exact Or.inr ⟨u', v, h2⟩

theorem firstIdx_cons (pat : List Char) (c : Char) (t : List Char) :
    firstIdx pat (c :: t) =
      if isPre pat (c :: t) then some 0 else (firstIdx pat t).map Nat.succ := rfl

theorem firstIdx_nil_of_ne (pat : List Char) (hp : pat ≠ []) : firstIdx pat [] = none := by
  cases pat with
  | nil => exact absurd rfl hp
  | cons a as => rfl

theorem firstIdx_bound (pat : List Char) (hp : pat ≠ []) :
    ∀ s i, firstIdx pat s = some i → i + pat.length ≤ s.length := by
  intro s
  induction s with
  | nil => intro i h; rw [firstIdx_nil_of_ne pat hp] at h; cases h
  | cons c t ih =>
    intro i h
    rw [firstIdx_cons] at h
    by_cases hpre : isPre pat (c :: t) = true
    · rw [if_pos hpre] at h
      injection h with h'
      subst h'
      simpa using isPre_length_le hpre
    · rw [if_neg hpre] at h
      obtain ⟨j, hj, rfl⟩ := Option.map_eq_some'.mp h
      have := ih j hj
      simp only [List.length_cons]
      omega

theorem goReplaceAllAux_succ (pat : List Char) (f : Nat) (c : Char) (rest : List Char) :
    goReplaceAllAux pat (f + 1) (c :: rest) =
      if isPre pat (c :: rest) then goReplaceAllAux pat f ((c :: rest).drop pat.length)
      else c :: goReplaceAllAux pat f rest := rfl

theorem goReplaceAllAux_nil (pat : List Char) (f : Nat) : goReplaceAllAux pat f [] = [] := by
  cases f <;> rfl

theorem goReplaceAllAux_fuel (pat : List Char) (hp : pat ≠ []) :
    ∀ f₁ f₂ s, s.length ≤ f₁ → s.length ≤ f₂ →
      goReplaceAllAux pat f₁ s = goReplaceAllAux pat f₂ s := by
  have hp1 : 1 ≤ pat.length := List.length_pos.mpr hp
  intro f₁
  induction f₁ with
  | zero =>
    intro f₂ s hs₁ hs₂
    have : s = [] := List.eq_nil_of_length_eq_zero (Nat.le_zero.mp hs₁)
    subst this
    rw [goReplaceAllAux_nil, goReplaceAllAux_nil]
  | succ f ih =>
    intro f₂ s hs₁ hs₂
    cases s with
    | nil => rw [goReplaceAllAux_nil, goReplaceAllAux_nil]
    | cons c rest =>
      cases f₂ with
      | zero => simp at hs₂
      | succ g =>
        rw [goReplaceAllAux_succ, goReplaceAllAux_succ]
        simp only [List.length_cons] at hs₁ hs₂
        by_cases hpre : isPre pat (c :: rest) = true
        · rw [if_pos hpre, if_pos hpre]
          exact ih g ((c :: rest).drop pat.length)
            (by simp only [List.length_drop, List.length_cons]; omega)
            (by simp only [List.length_drop, List.length_cons]; omega)
        · rw [if_neg hpre, if_neg hpre]
          rw [ih g rest (by omega) (by omega)]

theorem goReplaceAll_cons_pos (pat : List Char) (hp : pat ≠ []) {c : Char} {rest : List Char}
    (h : isPre pat (c :: rest) = true) :
    goReplaceAll pat (c :: rest) = goReplaceAll pat ((c :: rest).drop pat.length) := by
  have hp1 : 1 ≤ pat.length := List.length_pos.mpr hp
  show goReplaceAllAux pat (c :: rest).length (c :: rest) = _
  rw [show (c :: rest).length = rest.length + 1 from rfl, goReplaceAllAux_succ, if_pos h]
  exact goReplaceAllAux_fuel pat hp rest.length ((c :: rest).drop pat.length).length _
    (by simp only [List.length_drop, List.length_cons]; omega) (le_refl _)

theorem goReplaceAll_cons_neg (pat : List Char) {c : Char} {rest : List Char}
    (h : isPre pat (c :: rest) = false) :
    goReplaceAll pat (c :: rest) = c :: goReplaceAll pat rest := by
  show goReplaceAllAux pat (c :: rest).length (c :: rest) = _
  rw [show (c :: rest).length = rest.length + 1 from rfl, goReplaceAllAux_succ,
    if_neg (by simp [h])]
  rfl

theorem specRemoveAllAux_succ (pat : List Char) (f : Nat) (s : List Char) :
    specRemoveAllAux pat (f + 1) s =
      match firstIdx pat s with
      | none => s
      | some i => s.take i ++ specRemoveAllAux pat f (s.drop (i + pat.length)) := rfl

theorem specRemoveAllAux_fuel (pat : List Char) (hp : pat ≠ []) :
    ∀ f₁ f₂ s, s.length ≤ f₁ → s.length ≤ f₂ →
      specRemoveAllAux pat f₁ s = specRemoveAllAux pat f₂ s := by
  have hp1 : 1 ≤ pat.length := List.length_pos.mpr hp
  intro f₁
  induction f₁ with
  | zero =>
    intro f₂ s hs₁ hs₂
    have hs : s = [] := List.eq_nil_of_length_eq_zero (Nat.le_zero.mp hs₁)
    subst hs
    cases f₂ with
    | zero => rfl
    | succ g =>
      rw [specRemoveAllAux_succ, firstIdx_nil_of_ne pat hp]
      rfl
  | succ f ih =>
    intro f₂ s hs₁ hs₂
    cases f₂ with
    | zero =>
      have hs : s = [] := List.eq_nil_of_length_eq_zero (Nat.le_zero.mp hs₂)
      subst hs
      rw [specRemoveAllAux_succ, firstIdx_nil_of_ne pat hp]
      rfl
    | succ g =>
      rw [specRemoveAllAux_succ, specRemoveAllAux_succ]
      cases hfi : firstIdx pat s with
      | none => rfl
      | some i =>
        have hib := firstIdx_bound pat hp s i hfi
        have hlen : (s.drop (i + pat.length)).length ≤ f := by
          simp only [List.length_drop]; omega
        have hlen' : (s.drop (i + pat.length)).length ≤ g := by
          simp only [List.length_drop]; omega
        show s.take i ++ specRemoveAllAux pat f (s.drop (i + pat.length)) =
          s.take i ++ specRemoveAllAux pat g (s.drop (i + pat.length))
        rw [ih g (s.drop (i + pat.length)) hlen hlen']

theorem specRemoveAll_eq (pat : List Char) (hp : pat ≠ []) (s : List Char) :
    specRemoveAll pat s =
      match firstIdx pat s with
      | none => s
      | some i => s.take i ++ specRemoveAll pat (s.drop (i + pat.length)) := by
  have hp1 : 1 ≤ pat.length := List.length_pos.mpr hp
  cases s with
  | nil =>
    rw [show specRemoveAll pat [] = [] from rfl, firstIdx_nil_of_ne pat hp]
  | cons c t =>
    show specRemoveAllAux pat (t.length + 1) (c :: t) = _
    rw [specRemoveAllAux_succ]
    cases hfi : firstIdx pat (c :: t) with
    | none => rfl
    | some i =>
      have hib := firstIdx_bound pat hp (c :: t) i hfi
      simp only [List.length_cons] at hib
      show (c :: t).take i ++ specRemoveAllAux pat t.length ((c :: t).drop (i + pat.length)) =
        (c :: t).take i ++ specRemoveAll pat ((c :: t).drop (i + pat.length))
      rw [specRemoveAllAux_fuel pat hp t.length ((c :: t).drop (i + pat.length)).length _
        (by simp only [List.length_drop, List.length_cons]; omega) (le_refl _)]
      rfl

theorem goReplaceAll_of_no_occurrence (pat : List Char) (_hp : pat ≠ []) :
    ∀ s, firstIdx pat s = none → goReplaceAll pat s = s := by
  intro s
  induction s with
  | nil => intro _; rfl
  | cons c t ih =>
    intro h
    rw [firstIdx_cons] at h
    by_cases hpre : isPre pat (c :: t) = true
    · rw [if_pos hpre] at h; cases h
    · rw [if_neg hpre] at h
      have ht : firstIdx pat t = none := Option.map_eq_none'.mp h
      rw [goReplaceAll_cons_neg pat (Bool.eq_false_iff.mpr hpre), ih ht]

theorem goReplaceAll_eq_specRemoveAll_bounded (pat : List Char) (hp : pat ≠ []) :
    ∀ n s, s.length ≤ n → goReplaceAll pat s = specRemoveAll pat s := by
  have hp1 : 1 ≤ pat.length := List.length_pos.mpr hp
  intro n
  induction n with
  | zero =>
    intro s hs
    have hnil : s = [] := List.eq_nil_of_length_eq_zero (Nat.le_zero.mp hs)
    subst hnil
    rfl
  | succ n ih =>
    intro s hs
    cases s with
    | nil => rfl
    | cons c t =>
      by_cases hpre : isPre pat (c :: t) = true
      · have hfi0 : firstIdx pat (c :: t) = some 0 := by rw [firstIdx_cons, if_pos hpre]
        rw [goReplaceAll_cons_pos pat hp hpre, specRemoveAll_eq pat hp (c :: t), hfi0]
        show goReplaceAll pat ((c :: t).drop pat.length) =
          (c :: t).take 0 ++ specRemoveAll pat ((c :: t).drop (0 + pat.length))
        rw [List.take_zero, List.nil_append, Nat.zero_add]
        exact ih ((c :: t).drop pat.length)
          (by simp only [List.length_drop, List.length_cons] at *; omega)
      · have hpre' : isPre pat (c :: t) = false := Bool.eq_false_iff.mpr hpre
        have hsl : t.length ≤ n := by simp only [List.length_cons] at hs; omega
        rw [goReplaceAll_cons_neg pat hpre', ih t hsl, specRemoveAll_eq pat hp (c :: t),
          firstIdx_cons, if_neg hpre]
        cases hfi : firstIdx pat t with
        | none =>
          rw [specRemoveAll_eq pat hp t, hfi]
          rfl
        | some j =>
          rw [specRemoveAll_eq pat hp t, hfi]
          show c :: (t.take j ++ specRemoveAll pat (t.drop (j + pat.length))) =
            (c :: t).take (j + 1) ++ specRemoveAll pat ((c :: t).drop (j + 1 + pat.length))
          rw [List.take_succ_cons, show j + 1 + pat.length = j + pat.length + 1 from by omega,
            List.drop_succ_cons]
          rfl

theorem goReplaceAll_eq_specRemoveAll (pat s : List Char) (hp : pat ≠ []) :
    goReplaceAll pat s = specRemoveAll pat s :=
  goReplaceAll_eq_specRemoveAll_bounded pat hp s.length s (le_refl _)

theorem goHasSuffix_decomp {s pat : String} (h : goHasSuffix s pat = true) :
    s.data = s.data.take (s.data.length - pat.data.length) ++ pat.data := by
  unfold goHasSuffix at h
  rw [Bool.and_eq_true, decide_eq_true_eq] at h
  obtain ⟨hle, hpre⟩ := h
  obtain ⟨t, ht⟩ := (isPre_iff _ _).1 hpre
  have hlen : (s.data.drop (s.data.length - pat.data.length)).length = pat.data.length := by
    simp only [List.length_drop]; omega
  have ht0 : t = [] := by
    have hl := congrArg List.length ht
    rw [hlen, List.length_append] at hl
    exact List.eq_nil_of_length_eq_zero (by omega)
  subst ht0
  rw [List.append_nil] at ht
  conv_lhs => rw [(List.take_append_drop (s.data.length - pat.data.length) s.data).symm]
  rw [ht]

theorem isInf_cons_false {pat : List Char} {c : Char} {x : List Char}
    (h : isInf pat (c :: x) = false) : isInf pat x = false := by
  have hstep : isInf pat (c :: x) = (isPre pat (c :: x) || isInf pat x) := rfl
  rw [hstep, Bool.or_eq_false_iff] at h
  exact h.2

theorem dropLast_cons_ne {c : Char} {x : List Char} (hx : x ≠ []) :
    (c :: x).dropLast = c :: x.dropLast := by
  cases x with
  | nil => exact absurd rfl hx
  | cons y ys => rfl

theorem goReplaceAll_strip_suffix (pat : List Char) (hp : pat ≠ []) :
    ∀ d, isInf pat ((d ++ pat).dropLast) = false → goReplaceAll pat (d ++ pat) = d := by
  intro d
  induction d with
  | nil =>
    intro _
    cases hpat : pat with
    | nil => exact absurd hpat hp
    | cons p ps =>
      subst hpat
      have hrfl : isPre (p :: ps) (p :: ps) = true := by
        have h0 := isPre_append (p :: ps) []
        simpa using h0
      rw [List.nil_append, goReplaceAll_cons_pos (p :: ps) hp hrfl, List.drop_length]
      rfl
  | cons c d' ih =>
    intro hinf
    have hne : d' ++ pat ≠ [] := by
      intro hcon
      exact hp (List.append_eq_nil.mp hcon).2
    cases hb : isPre pat ((c :: d') ++ pat) with
    | false =>
      have hsub : isInf pat ((d' ++ pat).dropLast) = false := by
        have h1 : ((c :: d') ++ pat).dropLast = c :: (d' ++ pat).dropLast := by
          show (c :: (d' ++ pat)).dropLast = _
          exact dropLast_cons_ne hne
        rw [h1] at hinf
        exact isInf_cons_false hinf
      have hb' : isPre pat (c :: (d' ++ pat)) = false := hb
      show goReplaceAll pat (c :: (d' ++ pat)) = c :: d'
      rw [goReplaceAll_cons_neg pat hb', ih hsub]
    | true =>
      exfalso
      obtain ⟨t, ht⟩ := (isPre_iff _ _).1 hb
      have hlt : t ≠ [] := by
        intro h0
        subst h0
        have hl := congrArg List.length ht
        simp only [List.length_append, List.length_cons, List.append_nil] at hl
        omega
      have hdl2 : ((c :: d') ++ pat).dropLast = pat ++ t.dropLast := by
        rw [ht, List.dropLast_append_of_ne_nil _ hlt]
      have hcontra : isInf pat (((c :: d') ++ pat).dropLast) = true := by
        rw [hdl2]
        exact (isInf_iff pat _).2 ⟨[], t.dropLast, by simp⟩
      rw [hinf] at hcontra
      cases hcontra

/-- Claim C4 (amended): the entity name is the declaration name with every
occurrence of the suffix string removed (leftmost-first, non-overlapping) —
not only the trailing one; when the suffix string occurs nowhere except at
the very end, this coincides with stripping the trailing suffix. -/
theorem c4_amended_endpoint_name :
    (∀ n : String, requestEndpointName n =
      String.mk (specRemoveAll (("Request").data) n.data)) ∧
    (∀ n : String, responseEndpointName n =
      String.mk (specRemoveAll (("Response").data) n.data)) ∧
    (∀ n : String, goHasSuffix n ("Request") = true →
      isInf (("Request").data) n.data.dropLast = false →
      requestEndpointName n = stripSuffixSpec n ("Request")) ∧
    (∀ n : String, goHasSuffix n ("Response") = true →
      isInf (("Response").data) n.data.dropLast = false →
      responseEndpointName n = stripSuffixSpec n ("Response")) := by
  refine ⟨?_, ?_, ?_, ?_⟩
  · intro n
    unfold requestEndpointName goReplaceAllStr
    rw [goReplaceAll_eq_specRemoveAll _ _ (by decide)]
  · intro n
    unfold responseEndpointName goReplaceAllStr
    rw [goReplaceAll_eq_specRemoveAll _ _ (by decide)]
  · intro n hsuf hinner
    have hd := goHasSuffix_decomp hsuf
    unfold requestEndpointName goReplaceAllStr stripSuffixSpec
    congr 1
    generalize hgen : n.data.take (n.data.length - (("Request").data.length)) = d
    rw [hgen] at hd
    rw [hd] at hinner
    rw [hd]
    exact goReplaceAll_strip_suffix (("Request").data) (by decide) d hinner
  · intro n hsuf hinner
    have hd := goHasSuffix_decomp hsuf
    unfold responseEndpointName goReplaceAllStr stripSuffixSpec
    congr 1
    generalize hgen : n.data.take (n.data.length - (("Response").data.length)) = d
    rw [hgen] at hd
    rw [hd] at hinner
    rw [hd]
    exact goReplaceAll_strip_suffix (("Response").data) (by decide) d hinner

/-- Claim C4 witness: the amended rule applied to `FooRequest` and
`FooResponse`, whose suffix occurs only at the end. -/
theorem c4_amended_endpoint_name_witness :
    requestEndpointName ("FooRequest") = stripSuffixSpec ("FooRequest") ("Request") ∧
    responseEndpointName ("FooResponse") = stripSuffixSpec ("FooResponse") ("Response") :=
  ⟨c4_amended_endpoint_name.2.2.1 ("FooRequest") (by decide) (by decide),
   c4_amended_endpoint_name.2.2.2 ("FooResponse") (by decide) (by decide)⟩

/-- Claim C5 (amended): the derived description removes every occurrence of
the handler name followed by a space (leftmost-first, non-overlapping) and
upper-cases the first remaining character; for the claim's `CreateWidget`
example (a single occurrence) the result is `Creates a new widget.`. -/
theorem c5_amended_description :
    (∀ description rpc : String, enhanceDescription description rpc =
      toUpper (String.mk (specRemoveAll (rpc.data ++ [' ']) description.data))) ∧
    enhanceDescription ("CreateWidget creates a new widget.") ("CreateWidget") =
      ("Creates a new widget.") := by
  constructor
  · intro description rpc
    unfold enhanceDescription
    rw [goReplaceAll_eq_specRemoveAll _ _ (by simp)]
  · decide

/-- Claim C7 (amended): a `Request`-suffixed type spec whose underlying type
is not a struct aborts the run with the type-assertion panic — traversal
stops and generation is skipped, but no error value is returned to the
caller of `Parse` (`parseType` literally ends in `return nil`, so the
walker's stop-on-error branch is dead code); a declaration matching no
classification rule is skipped and traversal continues. -/
theorem c7_amended_structural_panic :
    (∀ (n : String) (e : Expr) (rest : List Decl) (s : PState),
      goHasSuffix n ("Request") = true → isStructTypeExpr e = false →
      walk (Decl.typeDecl ⟨n, e⟩ :: rest) s =
        .panicked ("interface conversion: ast.Expr is " ++ goNodeTypeName e ++
          ", not *ast.StructType")) ∧
    (∀ (ts : TypeSpec) (rest : List Decl) (s : PState),
      goHasSuffix ts.Name ("Request") = false → goHasSuffix ts.Name ("Response") = false →
      walk (Decl.typeDecl ts :: rest) s = walk rest s) ∧
    (∀ (rest : List Decl) (s : PState), walk (Decl.other :: rest) s = walk rest s) := by
  refine ⟨?_, ?_, ?_⟩
  · intro n e rest s hsuf hnot
    show obind (parseType ⟨n, e⟩ s) (walk rest) = _
    unfold parseType
    split
    · cases e <;> first | rfl | simp [isStructTypeExpr] at hnot
    · rename_i h
      exact absurd hsuf h
  · intro ts rest s h1 h2
    show obind (parseType ts s) (walk rest) = walk rest s
    unfold parseType
    split
    · rename_i h
      simp [h1] at h
    · split
      · rename_i h'
        simp [h2] at h'
      · rfl
  · intro rest s
    rfl

/-- Claim C7 witness: the amended behaviour at a concrete malformed spec
(`type OddRequest func()`) and a concrete ignored node. -/
theorem c7_amended_structural_panic_witness :
    walk [Decl.typeDecl ⟨"OddRequest", Expr.funcType⟩] newParserState =
      .panicked ("interface conversion: ast.Expr is *ast.FuncType, not *ast.StructType") ∧
    walk [Decl.other] newParserState = walk [] newParserState :=
  ⟨c7_amended_structural_panic.1 ("OddRequest") Expr.funcType [] newParserState
    (by decide) (by decide),
   c7_amended_structural_panic.2.2 [] newParserState⟩

theorem takeWhile_le_length (p : Char → Bool) : ∀ s : List Char,
    (s.takeWhile p).length ≤ s.length := by
  intro s
  induction s with
  | nil => simp
  | cons a t ih =>
    rw [List.takeWhile_cons]
    by_cases h : p a = true
    · rw [if_pos h]
      simp only [List.length_cons]
      omega
    · rw [if_neg h]
      simp

theorem takeWhile_append_of_word (id r : List Char)
    (hid : ∀ c ∈ id, wordChar c = true)
    (hr : ∀ c cs, r = c :: cs → wordChar c = false) :
    (id ++ r).takeWhile wordChar = id := by
  induction id with
  | nil =>
    rw [List.nil_append]
    cases r with
    | nil => rfl
    | cons c cs =>
      rw [List.takeWhile_cons, if_neg (by simp [hr c cs rfl])]
  | cons a id' ih =>
    have ha : wordChar a = true := hid a (List.mem_cons_self a id')
    rw [List.cons_append, List.takeWhile_cons, if_pos ha,
      ih (fun c hc => hid c (List.mem_cons_of_mem a hc))]

theorem take_all_word (p : Char → Bool) : ∀ (s : List Char) (j : Nat),
    j ≤ (s.takeWhile p).length → ∀ c ∈ s.take j, p c = true := by
  intro s
  induction s with
  | nil =>
    intro j hj c hc
    simp at hc
  | cons a t ih =>
    intro j hj c hc
    rw [List.takeWhile_cons] at hj
    by_cases hpa : p a = true
    · rw [if_pos hpa] at hj
      cases j with
      | zero => simp at hc
      | succ j' =>
        rw [List.take_succ_cons] at hc
        rcases List.mem_cons.mp hc with hceq | hmem
        · rw [hceq]; exact hpa
        · exact ih j' (by simpa using hj) c hmem
    · rw [if_neg hpa] at hj
      simp only [List.length_nil, Nat.le_zero] at hj
      subst hj
      simp at hc

theorem tryLens_sound (s : List Char) : ∀ k j, tryLens s k = some j →
    1 ≤ j ∧ j ≤ k ∧ tailMatch (s.drop j) = true := by
  intro k
  induction k with
  | zero => intro j h; cases h
  | succ k ih =>
    intro j h
    unfold tryLens at h
    by_cases ht : tailMatch (s.drop (k + 1)) = true
    · rw [if_pos ht] at h
      injection h with h'
      subst h'
      exact ⟨by omega, le_refl _, ht⟩
    · rw [if_neg ht] at h
      obtain ⟨h1, h2, h3⟩ := ih j h
      exact ⟨h1, by omega, h3⟩

theorem tryLens_complete (s : List Char) : ∀ k j, 1 ≤ j → j ≤ k →
    tailMatch (s.drop j) = true → (tryLens s k).isSome = true := by
  intro k
  induction k with
  | zero => intro j h1 h2 _; omega
  | succ k ih =>
    intro j h1 h2 h3
    unfold tryLens
    by_cases ht : tailMatch (s.drop (k + 1)) = true
    · rw [if_pos ht]; rfl
    · rw [if_neg ht]
      have hjk : j ≤ k := by
        rcases Nat.lt_or_ge j (k + 1) with hlt | hge
        · omega
        · exfalso
          have hje : j = k + 1 := by omega
          rw [hje] at h3
          exact ht h3
      exact ih j h1 hjk h3

theorem tailMatch_annTail (om : Bool) (post : List Char) :
    tailMatch (annTail om ++ post) = true := by
  unfold tailMatch
  rw [Bool.or_eq_true]
  cases om with
  | true =>
    refine Or.inl ((isPre_iff _ _).2 ⟨post, ?_⟩)
    have hconcat : ((",omitempty\"").data : List Char) = annTail true := by decide
    rw [hconcat]
  | false =>
    refine Or.inr ((isPre_iff _ _).2 ⟨post, ?_⟩)
    have h2 : (['"'] : List Char) = annTail false := by decide
    rw [h2]

theorem tailMatch_decomp {s : List Char} (h : tailMatch s = true) :
    ∃ om post, s = annTail om ++ post := by
  unfold tailMatch at h
  rw [Bool.or_eq_true] at h
  rcases h with h | h
  · obtain ⟨t, ht⟩ := (isPre_iff _ _).1 h
    refine ⟨true, t, ?_⟩
    rw [ht]
    have hconcat : ((",omitempty\"").data : List Char) = annTail true := by decide
    rw [hconcat]
  · obtain ⟨t, ht⟩ := (isPre_iff _ _).1 h
    refine ⟨false, t, ?_⟩
    rw [ht]
    have h2 : (['"'] : List Char) = annTail false := by decide
    rw [h2]

theorem wordChar_of_isDigit {c : Char} (h : c.isDigit = true) : wordChar c = true := by
  simp [wordChar, Char.isAlphanum, h]

theorem annTail_head_not_word (om : Bool) (post : List Char) :
    ∀ c cs, annTail om ++ post = c :: cs → wordChar c = false := by
  intro c cs h
  cases om with
  | true =>
    have hform : annTail true = ',' :: (("omitempty\"").data) := by decide
    rw [hform, List.cons_append] at h
    have hc : c = ',' := by injection h with h1 _; exact h1.symm
    rw [hc]
    decide
  | false =>
    have hform : annTail false = '"' :: [] := by decide
    rw [hform, List.cons_append] at h
    have hc : c = '"' := by injection h with h1 _; exact h1.symm
    rw [hc]
    decide

theorem matchCap_cons (c : Char) (rest : List Char) :
    matchCap (c :: rest) =
      if (c.isDigit && tailMatch rest) = true then some [c]
      else (tryLens (c :: rest) ((c :: rest).takeWhile wordChar).length).map
        (fun k => (c :: rest).take k) := rfl

theorem matchCap_complete (id : List Char) (om : Bool) (post : List Char)
    (hne : id ≠ []) (hword : ∀ c ∈ id, wordChar c = true) :
    (matchCap (id ++ (annTail om ++ post))).isSome = true := by
  cases id with
  | nil => exact absurd rfl hne
  | cons c id' =>
    show (matchCap (c :: (id' ++ (annTail om ++ post)))).isSome = true
    rw [matchCap_cons]
    by_cases hd : (c.isDigit && tailMatch (id' ++ (annTail om ++ post))) = true
    · rw [if_pos hd]; rfl
    · rw [if_neg hd]
      rw [Option.isSome_map']
      have htw : (c :: (id' ++ (annTail om ++ post))).takeWhile wordChar = c :: id' :=
        takeWhile_append_of_word (c :: id') (annTail om ++ post) hword
          (annTail_head_not_word om post)
      rw [htw]
      have hdrop : (c :: (id' ++ (annTail om ++ post))).drop (c :: id').length =
          annTail om ++ post :=
        List.drop_left (c :: id') (annTail om ++ post)
      exact tryLens_complete _ _ (c :: id').length
        (by simp only [List.length_cons]; omega) (le_refl _)
        (by rw [hdrop]; exact tailMatch_annTail om post)

theorem matchCap_sound {s cap : List Char} (h : matchCap s = some cap) :
    cap ≠ [] ∧ (∀ c ∈ cap, wordChar c = true) ∧
      ∃ om post, s = cap ++ (annTail om ++ post) := by
  cases s with
  | nil => cases h
  | cons c rest =>
    rw [matchCap_cons] at h
    by_cases hd : (c.isDigit && tailMatch rest) = true
    · rw [if_pos hd] at h
      injection h with h'
      subst h'
      rw [Bool.and_eq_true] at hd
      obtain ⟨hdig, htail⟩ := hd
      obtain ⟨om, post, hpost⟩ := tailMatch_decomp htail
      refine ⟨by simp, ?_, om, post, by rw [hpost, List.singleton_append]⟩
      intro x hx
      rw [List.mem_singleton.mp hx]
      exact wordChar_of_isDigit hdig
    · rw [if_neg hd, Option.map_eq_some'] at h
      obtain ⟨j, hj, hcap⟩ := h
      obtain ⟨hj1, hjk, htail⟩ := tryLens_sound _ _ _ hj
      subst hcap
      have hjlen : j ≤ (c :: rest).length :=
        le_trans hjk (takeWhile_le_length wordChar (c :: rest))
      have hlen : ((c :: rest).take j).length = j := by
        rw [List.length_take, Nat.min_eq_left hjlen]
      refine ⟨?_, ?_, ?_⟩
      · intro hnil
        rw [hnil] at hlen
        simp at hlen
        omega
      · exact fun c' hc' => take_all_word wordChar (c :: rest) j hjk c' hc'
      · obtain ⟨om, post, hpost⟩ := tailMatch_decomp htail
        refine ⟨om, post, ?_⟩
        conv_lhs => rw [(List.take_append_drop j (c :: rest)).symm]
        rw [hpost]

theorem matchAt_complete (id : List Char) (om : Bool) (post : List Char)
    (hne : id ≠ []) (hword : ∀ c ∈ id, wordChar c = true) :
    (matchAt (litJson ++ (id ++ (annTail om ++ post)))).isSome = true := by
  unfold matchAt
  rw [if_pos (isPre_append litJson _), List.drop_left]
  exact matchCap_complete id om post hne hword

theorem matchAt_sound {s cap : List Char} (h : matchAt s = some cap) :
    ∃ om post, s = tagAnnot cap om ++ post ∧ cap ≠ [] ∧ ∀ c ∈ cap, wordChar c = true := by
  unfold matchAt at h
  by_cases hpre : isPre litJson s = true
  · rw [if_pos hpre] at h
    obtain ⟨t, ht⟩ := (isPre_iff _ _).1 hpre
    subst ht
    rw [List.drop_left] at h
    obtain ⟨hne, hword, om, post, hdecomp⟩ := matchCap_sound h
    refine ⟨om, post, ?_, hne, hword⟩
    rw [hdecomp]
    unfold tagAnnot
    simp [List.append_assoc]
  · rw [if_neg hpre] at h
    cases h

theorem findCap_cons (c : Char) (t : List Char) :
    findCap (c :: t) =
      match matchAt (c :: t) with
      | some r => some r
      | none => findCap t := rfl

theorem findCap_complete : ∀ (pre rest : List Char), (matchAt rest).isSome = true →
    (findCap (pre ++ rest)).isSome = true := by
  intro pre
  induction pre with
  | nil =>
    intro rest h
    cases rest with
    | nil => exact absurd h (by decide)
    | cons c t =>
      rw [List.nil_append, findCap_cons]
      cases hm : matchAt (c :: t) with
      | some r => rfl
      | none => rw [hm] at h; cases h
  | cons p pre' ih =>
    intro rest h
    rw [List.cons_append, findCap_cons]
    cases hm : matchAt (p :: (pre' ++ rest)) with
    | some r => rfl
    | none => exact ih rest h

theorem findCap_sound : ∀ {s cap : List Char}, findCap s = some cap →
    ∃ pre rest, s = pre ++ rest ∧ matchAt rest = some cap := by
  intro s
  induction s with
  | nil => intro cap h; cases h
  | cons c t ih =>
    intro cap h
    rw [findCap_cons] at h
    cases hm : matchAt (c :: t) with
    | some r =>
      rw [hm] at h
      injection h with h'
      subst h'
      exact ⟨[], c :: t, rfl, hm⟩
    | none =>
      rw [hm] at h
      obtain ⟨pre, rest, hsp, hmm2⟩ := ih h
      exact ⟨c :: pre, rest, by rw [List.cons_append, hsp], hmm2⟩

/-- Claim C6: the tag extractor's contract.  If the raw tag text contains an
annotation `json:"<identifier>"` (optionally with `,omitempty`), `parseTag`
succeeds and returns the identifier captured by the leftmost match — itself
a non-empty word-character identifier occurring in such an annotation in the
text.  If no part of the text matches the pattern, `FindStringSubmatch`
returns nil and the extractor panics with an index-out-of-range error (no
recovered fallback). -/
theorem c6_parseTag_contract :
    (∀ (pre id post : List Char) (om : Bool),
      id ≠ [] → (∀ c ∈ id, wordChar c = true) →
      ∃ r : String,
        parseTag (String.mk (pre ++ (tagAnnot id om ++ post))) = .ok r ∧
        r.data ≠ [] ∧ (∀ c ∈ r.data, wordChar c = true) ∧
        ∃ pre2 om2 post2,
          pre ++ (tagAnnot id om ++ post) = pre2 ++ (tagAnnot r.data om2 ++ post2)) ∧
    (∀ tag : String,
      (¬ ∃ (pre id post : List Char) (om : Bool),
        tag.data = pre ++ (tagAnnot id om ++ post) ∧ id ≠ [] ∧ ∀ c ∈ id, wordChar c = true) →
      parseTag tag = .panicked ("runtime error: index out of range")) := by
  constructor
  · intro pre id post om hne hword
    have hrest : (matchAt (tagAnnot id om ++ post)).isSome = true := by
      have h0 := matchAt_complete id om post hne hword
      have hassoc : litJson ++ (id ++ (annTail om ++ post)) = tagAnnot id om ++ post := by
        unfold tagAnnot
        simp [List.append_assoc]
      rw [hassoc] at h0
      exact h0
    have hfind : (findCap (pre ++ (tagAnnot id om ++ post))).isSome = true :=
      findCap_complete pre _ hrest
    obtain ⟨cap, hcap⟩ := Option.isSome_iff_exists.mp hfind
    obtain ⟨pre2, rest2, hsplit, hmat⟩ := findCap_sound hcap
    obtain ⟨om2, post2, hform, hne2, hword2⟩ := matchAt_sound hmat
    refine ⟨String.mk cap, ?_, hne2, hword2, pre2, om2, post2, ?_⟩
    · show (match findCap (pre ++ (tagAnnot id om ++ post)) with
        | some c => Outcome.ok (String.mk c)
        | none =>
          Outcome.panicked ("runtime error: index out of range")) = Outcome.ok (String.mk cap)
      rw [hcap]
    · rw [hsplit, hform]
  · intro tag hno
    cases hf : findCap tag.data with
    | some cap =>
      exfalso
      obtain ⟨pre2, rest2, hsplit, hmat⟩ := findCap_sound hf
      obtain ⟨om2, post2, hform, hne2, hword2⟩ := matchAt_sound hmat
      exact hno ⟨pre2, cap, post2, om2, by rw [hsplit, hform], hne2, hword2⟩
    | none =>
      show (match findCap tag.data with
        | some c => Outcome.ok (String.mk c)
        | none =>
          Outcome.panicked ("runtime error: index out of range")) =
        Outcome.panicked ("runtime error: index out of range")
      rw [hf]

/-- Claim C6 witness: the contract applied to the concrete raw tag
`x json:"name,omitempty" z` — extraction succeeds with a captured
identifier forming an annotation in the text. -/
theorem c6_parseTag_contract_witness :
    ∃ r : String,
      parseTag (String.mk ((("x ").data) ++ (tagAnnot (("name").data) true ++ (("z").data)))) =
        .ok r ∧
      r.data ≠ [] ∧ (∀ c ∈ r.data, wordChar c = true) ∧
      ∃ pre2 om2 post2,
        (("x ").data) ++ (tagAnnot (("name").data) true ++ (("z").data)) =
          pre2 ++ (tagAnnot r.data om2 ++ post2) :=
  c6_parseTag_contract.1 (("x ").data) (("name").data) (("z").data) true
    (by decide) (by decide)
